import Mathlib

/-!
Verification of the SoLUSH-3 genetic-programming core.

This file shallowly embeds the Rust source under `src/offchain/src/`
(the AST and its bytecode encoding from `compiler/ast.rs`, the size-controlled
random generator from `gp/generate_spec.rs`, the structural operators from
`gp/mutation.rs`, and the population-management layer from
`gp/population_management.rs`) and proves or refutes the specification's
claims about them.

Conventions of the embedding:
- Machine integers are modelled as `Nat`/`Int`, with explicit `% 2^w`
  arithmetic where Rust performs a truncating cast.
- Rust `f64` values are modelled as `ℚ`; every numeric computation the
  claims touch uses only field operations and comparisons, which `ℚ`
  mirrors faithfully (the one exception, `f64::sqrt` inside the statistics
  function, is taken as an explicit function parameter).
- A Rust operation that can panic is modelled as returning `Option`,
  with `none` standing for the panic.
- The stateful `rand::Rng` source is modelled as an infinite stream of
  naturals (`RNG := Nat → Nat`), threaded explicitly; `gen_range lo hi`
  consumes one stream element and returns a value in `[lo, hi)`.
-/

namespace SoLUSH

/-- The opcode enumeration from `src/offchain/src/compiler/ast.rs`
(`pub enum OpCode`). -/
inductive OpCode : Type
  | Noop
  | Plus
  | Minus
  | Mult
  | Dup
  | Pop
deriving DecidableEq, Repr

/-- The program AST from `src/offchain/src/compiler/ast.rs`
(`pub enum UntypedAst`). -/
inductive UntypedAst : Type
  | IntLiteral : Int → UntypedAst
  | Instruction : OpCode → UntypedAst
  | Sublist : List UntypedAst → UntypedAst
deriving Repr

namespace UntypedAst

mutual

def hasDecEq : (a b : UntypedAst) → Decidable (a = b)
  | IntLiteral x, IntLiteral y =>
    match decEq x y with
    | isTrue h => isTrue (by rw [h])
    | isFalse h => isFalse (by simp only [IntLiteral.injEq]; exact h)
  | IntLiteral _, Instruction _ => isFalse (by intro h; cases h)
  | IntLiteral _, Sublist _ => isFalse (by intro h; cases h)
  | Instruction _, IntLiteral _ => isFalse (by intro h; cases h)
  | Instruction x, Instruction y =>
    match decEq x y with
    | isTrue h => isTrue (by rw [h])
    | isFalse h => isFalse (by simp only [Instruction.injEq]; exact h)
  | Instruction _, Sublist _ => isFalse (by intro h; cases h)
  | Sublist _, IntLiteral _ => isFalse (by intro h; cases h)
  | Sublist _, Instruction _ => isFalse (by intro h; cases h)
  | Sublist xs, Sublist ys =>
    match hasDecEqList xs ys with
    | isTrue h => isTrue (by rw [h])
    | isFalse h => isFalse (by simp only [Sublist.injEq]; exact h)

def hasDecEqList : (xs ys : List UntypedAst) → Decidable (xs = ys)
  | [], [] => isTrue rfl
  | _ :: _, [] => isFalse (by intro h; cases h)
  | [], _ :: _ => isFalse (by intro h; cases h)
  | x :: xs, y :: ys =>
    match hasDecEq x y with
    | isFalse h => isFalse (by simp only [List.cons.injEq, not_and]; intro hxy; exact absurd hxy h)
    | isTrue h =>
      match hasDecEqList xs ys with
      | isTrue h2 => isTrue (by rw [h, h2])
      | isFalse h2 => isFalse (by simp only [List.cons.injEq]; intro hh; exact absurd hh.2 h2)

end

instance : DecidableEq UntypedAst := hasDecEq

/-- Structural induction principle for the nested inductive `UntypedAst`. -/
def inductionOn {P : UntypedAst → Prop}
    (lit : ∀ v, P (IntLiteral v))
    (ins : ∀ op, P (Instruction op))
    (sub : ∀ cs, (∀ c ∈ cs, P c) → P (Sublist cs)) : ∀ t, P t
  | IntLiteral v => lit v
  | Instruction op => ins op
  | Sublist cs => sub cs (fun c hc =>
      have : sizeOf c < 1 + sizeOf cs := by
        have := List.sizeOf_lt_of_mem hc
        omega
      inductionOn lit ins sub c)
termination_by t => sizeOf t

end UntypedAst

open UntypedAst

mutual

/-- `get_subtree_size` from `src/offchain/src/gp/mutation.rs`:
node count of an AST (1 for a leaf, 1 + sum over children for a sublist). -/
def get_subtree_size : UntypedAst → Nat
  | .IntLiteral _ => 1
  | .Instruction _ => 1
  | .Sublist cs => 1 + sizeSum cs

/-- Sum of `get_subtree_size` over a list of children
(the `children.iter().map(get_subtree_size).sum()` in the source). -/
def sizeSum : List UntypedAst → Nat
  | [] => 0
  | c :: cs => get_subtree_size c + sizeSum cs

end

theorem sizeSum_eq_map_sum (cs : List UntypedAst) :
    sizeSum cs = (cs.map get_subtree_size).sum := by
  induction cs with
  | nil => rfl
  | cons c cs ih => simp [sizeSum, ih]

theorem get_subtree_size_pos : ∀ t : UntypedAst, 1 ≤ get_subtree_size t := by
  intro t
  cases t <;> simp [get_subtree_size]

/-- The truncating Rust cast `usize as u16` (`payload.len() as u16` in
`UntypedAst::to_bytecode`, `src/offchain/src/compiler/ast.rs`). -/
def asU16 (n : Nat) : Nat := n % 65536

/-- `u16::to_be_bytes`: the two big-endian bytes of a 16-bit value. -/
def u16be (n : Nat) : List Nat := [n / 256, n % 256]

/-- `i32::to_be_bytes`: the four big-endian bytes of the 32-bit
two's-complement representation of `v`. -/
def i32be (v : Int) : List Nat :=
  let u := (v % 4294967296).toNat
  [u / 16777216, u / 65536 % 256, u / 256 % 256, u % 256]

/-- The opcode-to-wire-byte mapping from `UntypedAst::to_bytecode`
(`src/offchain/src/compiler/ast.rs`). -/
def opcode_byte : OpCode → Nat
  | .Noop => 0x00
  | .Plus => 0x01
  | .Minus => 0x04
  | .Mult => 0x05
  | .Dup => 0x06
  | .Pop => 0x07

mutual

/-- `UntypedAst::to_bytecode` from `src/offchain/src/compiler/ast.rs`:
- `IntLiteral(val)`: `0x02` then `val.to_be_bytes()`;
- `Instruction(op)`: the single mapped opcode byte;
- `Sublist(children)`: `0x03`, then `(payload.len() as u16).to_be_bytes()`
  (a truncating cast), then the concatenated child payload. -/
def to_bytecode : UntypedAst → List Nat
  | .IntLiteral v => 0x02 :: i32be v
  | .Instruction op => [opcode_byte op]
  | .Sublist cs => 0x03 :: u16be (asU16 (payloadBytes cs).length) ++ payloadBytes cs

/-- The `payload` accumulation loop of the `Sublist` arm of `to_bytecode`:
concatenation of the children's encodings, in order. -/
def payloadBytes : List UntypedAst → List Nat
  | [] => []
  | c :: cs => to_bytecode c ++ payloadBytes cs

end

theorem payloadBytes_eq_flatten (cs : List UntypedAst) :
    payloadBytes cs = (cs.map to_bytecode).flatten := by
  induction cs with
  | nil => rfl
  | cons c cs ih => simp [payloadBytes, ih]

theorem payloadBytes_replicate_length (n : Nat) (t : UntypedAst) :
    (payloadBytes (List.replicate n t)).length = n * (to_bytecode t).length := by
  induction n with
  | zero => simp [payloadBytes]
  | succ n ih =>
      simp only [List.replicate_succ, payloadBytes, List.length_append, ih]
      ring

mutual

/-- Every Sublist node's concatenated child payload fits the 16-bit length
field (`< 65536` bytes); the regime in which the encoding is not truncated. -/
def payload_fits : UntypedAst → Bool
  | .IntLiteral _ => true
  | .Instruction _ => true
  | .Sublist cs => decide ((payloadBytes cs).length < 65536) && payload_fits_children cs

/-- `payload_fits` over a child list. -/
def payload_fits_children : List UntypedAst → Bool
  | [] => true
  | c :: cs => payload_fits c && payload_fits_children cs

end

theorem u16be_zero : u16be (asU16 0) = [0, 0] := by norm_num [asU16, u16be]

theorem to_bytecode_intLiteral_length (v : Int) :
    (to_bytecode (UntypedAst.IntLiteral v)).length = 5 := by
  simp [to_bytecode, i32be]

theorem to_bytecode_instruction_length (op : OpCode) :
    (to_bytecode (UntypedAst.Instruction op)).length = 1 := by
  simp [to_bytecode]

/-- C1: the code evaluated at a Sublist whose child payload (65540 bytes)
exceeds the 16-bit length field: `to_bytecode` returns normally, writing
`65540 mod 2^16 = 4` (bytes `0, 4`) into the length field — silent
truncation, not a loud failure. -/
theorem to_bytecode_silently_truncates_overflow :
    (payloadBytes (List.replicate 13108 (UntypedAst.IntLiteral 0))).length = 65540 ∧
    to_bytecode (UntypedAst.Sublist (List.replicate 13108 (UntypedAst.IntLiteral 0)))
      = 3 :: 0 :: 4 :: payloadBytes (List.replicate 13108 (UntypedAst.IntLiteral 0)) := by
  have hlen : (payloadBytes (List.replicate 13108 (UntypedAst.IntLiteral 0))).length = 65540 := by
    rw [payloadBytes_replicate_length, to_bytecode_intLiteral_length]
  refine ⟨hlen, ?_⟩
  simp only [to_bytecode, hlen]
  norm_num [asU16, u16be]

/-- C2, counterexample: for the Sublist of 65536 `Noop` instructions the
concatenated child encoding is 65536 bytes long, but no pair of bytes in the
emitted header carries that length: the field holds `65536 mod 2^16 = 0`. -/
theorem sublist_length_field_not_payload_length :
    ¬ ∃ b1 b2 : Nat,
        to_bytecode (UntypedAst.Sublist (List.replicate 65536 (UntypedAst.Instruction OpCode.Noop)))
          = 3 :: b1 :: b2 :: payloadBytes (List.replicate 65536 (UntypedAst.Instruction OpCode.Noop)) ∧
        b1 * 256 + b2
          = (payloadBytes (List.replicate 65536 (UntypedAst.Instruction OpCode.Noop))).length := by
  have hlen : (payloadBytes (List.replicate 65536 (UntypedAst.Instruction OpCode.Noop))).length
      = 65536 := by
    rw [payloadBytes_replicate_length, to_bytecode_instruction_length]
  have henc : to_bytecode
        (UntypedAst.Sublist (List.replicate 65536 (UntypedAst.Instruction OpCode.Noop)))
      = 3 :: 0 :: 0 :: payloadBytes (List.replicate 65536 (UntypedAst.Instruction OpCode.Noop)) := by
    simp only [to_bytecode, hlen]
    norm_num [asU16, u16be]
  rintro ⟨b1, b2, heq, hval⟩
  rw [henc] at heq
  simp only [List.cons.injEq] at heq
  rw [← heq.2.1, ← heq.2.2.1, hlen] at hval
  omega

/-- C2, amended: `IntLiteral(v)` encodes as tag `0x02` plus 4 bytes holding
`v` big-endian two's-complement; `Instruction(op)` as the single mapped wire
byte; `Sublist(children)` as tag `0x03`, 2 bytes holding big-endian
(payload length mod 2^16) — equal to the payload length exactly when it fits
16 bits — then the concatenated child encodings; the empty Sublist encodes
as exactly `[3, 0, 0]`. -/
theorem to_bytecode_format :
    (∀ v : Int, ∃ b0 b1 b2 b3 : Nat,
        to_bytecode (UntypedAst.IntLiteral v) = [2, b0, b1, b2, b3] ∧
        b0 < 256 ∧ b1 < 256 ∧ b2 < 256 ∧ b3 < 256 ∧
        ((b0 * 16777216 + b1 * 65536 + b2 * 256 + b3 : Nat) : Int) % 4294967296
          = v % 4294967296) ∧
    (∀ op : OpCode, to_bytecode (UntypedAst.Instruction op) = [opcode_byte op]) ∧
    (∀ cs : List UntypedAst, ∃ b1 b2 : Nat,
        to_bytecode (UntypedAst.Sublist cs) = 3 :: b1 :: b2 :: payloadBytes cs ∧
        b1 < 256 ∧ b2 < 256 ∧
        b1 * 256 + b2 = (payloadBytes cs).length % 65536 ∧
        payloadBytes cs = (cs.map to_bytecode).flatten) ∧
    to_bytecode (UntypedAst.Sublist []) = [3, 0, 0] := by
  refine ⟨?_, ?_, ?_, ?_⟩
  · intro v
    have hnn : 0 ≤ v % 4294967296 := Int.emod_nonneg v (by norm_num)
    have hlt : v % 4294967296 < 4294967296 := Int.emod_lt_of_pos v (by norm_num)
    set u : Nat := (v % 4294967296).toNat with hu
    have hult : u < 4294967296 := by omega
    refine ⟨u / 16777216, u / 65536 % 256, u / 256 % 256, u % 256, ?_, by omega, by omega,
      by omega, by omega, ?_⟩
    · simp [to_bytecode, i32be, hu]
    · have hrec : u / 16777216 * 16777216 + u / 65536 % 256 * 65536 +
          u / 256 % 256 * 256 + u % 256 = u := by omega
      have : ((u : Int)) % 4294967296 = v % 4294967296 := by
        have : (u : Int) = v % 4294967296 := by omega
        rw [this, Int.emod_emod_of_dvd _ (by norm_num)]
      rw [← this]
      norm_cast
      omega
  · intro op
    rfl
  · intro cs
    refine ⟨asU16 (payloadBytes cs).length / 256, asU16 (payloadBytes cs).length % 256,
      ?_, ?_, by omega, ?_, payloadBytes_eq_flatten cs⟩
    · simp [to_bytecode, u16be]
    · have : asU16 (payloadBytes cs).length < 65536 := Nat.mod_lt _ (by norm_num)
      omega
    · have : asU16 (payloadBytes cs).length < 65536 := Nat.mod_lt _ (by norm_num)
      simp only [asU16] at *
      omega
  · rfl

/-! ### Path addressing (`src/offchain/src/gp/mutation.rs`) -/

/-- `pub type Path = Vec<usize>` from `src/offchain/src/gp/mutation.rs`. -/
abbrev Path := List Nat

mutual

/-- `dfs_helper` from `src/offchain/src/gp/mutation.rs`: records the current
path, then (for a `Sublist`) pushes each child index and recurses.  The
mutable accumulator pair (`paths`, `current_path`) is rendered as the list of
paths this call appends, with `current_path` passed functionally. -/
def dfs_helper : UntypedAst → Path → List Path
  | .IntLiteral _, cur => [cur]
  | .Instruction _, cur => [cur]
  | .Sublist cs, cur => cur :: dfs_children cs cur 0

/-- The `for (i, child) in children.iter().enumerate()` loop of `dfs_helper`,
started at child index `i`. -/
def dfs_children : List UntypedAst → Path → Nat → List Path
  | [], _, _ => []
  | c :: cs, cur, i => dfs_helper c (cur ++ [i]) ++ dfs_children cs cur (i + 1)

end

/-- `enum_nodes_dfs` from `src/offchain/src/gp/mutation.rs`. -/
def enum_nodes_dfs (t : UntypedAst) : List Path := dfs_helper t []

/-- `get_subtree` from `src/offchain/src/gp/mutation.rs`: empty path returns
the node itself; a `Sublist` descends when the index is in range, else falls
back to cloning the current node; a leaf with a non-empty path falls back to
cloning the leaf. -/
def get_subtree : UntypedAst → Path → UntypedAst
  | t, [] => t
  | .Sublist cs, i :: rest =>
      if h : i < cs.length then get_subtree (cs.get ⟨i, h⟩) rest
      else .Sublist cs
  | t, _ :: _ => t

/-- `replace_subtree` from `src/offchain/src/gp/mutation.rs`.  The source
indexes `children[first_idx]` and `new_children[first_idx]` without a bounds
check; an out-of-range index panics in Rust, modelled here as `none`.  A leaf
with a non-empty path returns `original.clone()`. -/
def replace_subtree : UntypedAst → Path → UntypedAst → Option UntypedAst
  | _, [], replacement => some replacement
  | .Sublist cs, i :: rest, replacement =>
      if h : i < cs.length then
        (replace_subtree (cs.get ⟨i, h⟩) rest replacement).map
          (fun c => .Sublist (cs.set i c))
      else none
  | t, _ :: _, _ => some t

/-- A path all of whose indices are in range, ending anywhere in the tree:
the paths `enum_nodes_dfs` can produce. -/
def validPathB : UntypedAst → Path → Bool
  | _, [] => true
  | .Sublist cs, i :: rest =>
      if h : i < cs.length then validPathB (cs.get ⟨i, h⟩) rest else false
  | _, _ :: _ => false

/-- The longest prefix of `p` that is a valid path in `t`. -/
def longestValidPart : UntypedAst → Path → Path
  | _, [] => []
  | .Sublist cs, i :: rest =>
      if h : i < cs.length then i :: longestValidPart (cs.get ⟨i, h⟩) rest
      else []
  | _, _ :: _ => []

/-- A non-empty path that crosses a leaf before its indices are exhausted
(every index in range until the leaf is reached). -/
def path_crosses_leaf : UntypedAst → Path → Bool
  | .IntLiteral _, _ :: _ => true
  | .Instruction _, _ :: _ => true
  | .Sublist cs, i :: rest =>
      if h : i < cs.length then path_crosses_leaf (cs.get ⟨i, h⟩) rest else false
  | _, [] => false

theorem list_set_get_self {α : Type} (l : List α) (i : Nat) (h : i < l.length) :
    l.set i (l.get ⟨i, h⟩) = l := by
  induction l generalizing i with
  | nil => simp at h
  | cons x xs ih =>
      cases i with
      | zero => simp
      | succ j =>
          simp only [List.length_cons] at h
          simp only [List.set, List.get, List.cons.injEq, true_and]
          exact ih j (by omega)

theorem replace_get_of_validPath (r : UntypedAst) :
    ∀ (p : Path) (t : UntypedAst), validPathB t p = true →
      ∃ t', replace_subtree t p r = some t' ∧ get_subtree t' p = r := by
  intro p
  induction p with
  | nil => intro t _; exact ⟨r, by cases t <;> rfl, by cases r <;> rfl⟩
  | cons i rest ih =>
      intro t hv
      cases t with
      | IntLiteral v => simp [validPathB] at hv
      | Instruction op => simp [validPathB] at hv
      | Sublist cs =>
          by_cases h : i < cs.length
          · have hv' : validPathB (cs.get ⟨i, h⟩) rest = true := by
              simpa [validPathB, h] using hv
            obtain ⟨c', hc', hg⟩ := ih (cs.get ⟨i, h⟩) hv'
            refine ⟨.Sublist (cs.set i c'), ?_, ?_⟩
            · have hc'' : replace_subtree cs[i] rest r = some c' := by simpa using hc'
              simp [replace_subtree, h, hc'']
            · have hlen : i < (cs.set i c').length := by simpa using h
              have hget : (cs.set i c').get ⟨i, hlen⟩ = c' := by simp
              have hstep : get_subtree (.Sublist (cs.set i c')) (i :: rest)
                  = get_subtree c' rest := by
                simp only [get_subtree, dif_pos hlen]
                rw [hget]
              rw [hstep, hg]
          · simp [validPathB, h] at hv

theorem dfs_children_mem
    (cs : List UntypedAst)
    (hcs : ∀ c ∈ cs, ∀ (cur q : Path), q ∈ dfs_helper c cur →
           ∃ s, q = cur ++ s ∧ validPathB c s = true) :
    ∀ (cur : Path) (i : Nat) (q : Path), q ∈ dfs_children cs cur i →
      ∃ j, ∃ hj : j < cs.length, ∃ s, q = cur ++ (i + j) :: s ∧
        validPathB (cs.get ⟨j, hj⟩) s = true := by
  induction cs with
  | nil => intro cur i q hq; simp [dfs_children] at hq
  | cons c cs' ih =>
      intro cur i q hq
      simp only [dfs_children, List.mem_append] at hq
      rcases hq with hq | hq
      · obtain ⟨s, hs, hvs⟩ := hcs c (List.mem_cons_self c cs') (cur ++ [i]) q hq
        refine ⟨0, by simp, s, ?_, ?_⟩
        · rw [hs, List.append_assoc]
          simp
        · simpa using hvs
      · obtain ⟨j, hj, s, hs, hvs⟩ :=
          ih (fun d hd => hcs d (List.mem_cons_of_mem c hd)) cur (i + 1) q hq
        refine ⟨j + 1, by simpa using Nat.succ_lt_succ hj, s, ?_, ?_⟩
        · rw [hs]
          congr 2
          omega
        · simpa using hvs

theorem dfs_helper_mem : ∀ (t : UntypedAst) (cur q : Path),
    q ∈ dfs_helper t cur → ∃ s, q = cur ++ s ∧ validPathB t s = true := by
  intro t
  induction t using UntypedAst.inductionOn with
  | lit v => intro cur q hq; simp [dfs_helper] at hq; exact ⟨[], by simp [hq], rfl⟩
  | ins op => intro cur q hq; simp [dfs_helper] at hq; exact ⟨[], by simp [hq], rfl⟩
  | sub cs ih =>
      intro cur q hq
      simp only [dfs_helper, List.mem_cons] at hq
      rcases hq with hq | hq
      · exact ⟨[], by simp [hq], rfl⟩
      · obtain ⟨j, hj, s, hs, hvs⟩ := dfs_children_mem cs ih cur 0 q hq
        refine ⟨j :: s, by simpa using hs, ?_⟩
        simp only [validPathB, dif_pos hj]
        simpa using hvs

theorem mem_enum_valid (t : UntypedAst) (p : Path) (hp : p ∈ enum_nodes_dfs t) :
    validPathB t p = true := by
  obtain ⟨s, hs, hvs⟩ := dfs_helper_mem t [] p hp
  simpa [hs] using hvs

/-- C7: replacing at the root path returns the replacement, and for every
path `p` enumerated by `enum_nodes_dfs`, replacing at `p` succeeds and
reading the result back at `p` yields the replacement. -/
theorem replace_then_get :
    (∀ (t r : UntypedAst), replace_subtree t [] r = some r) ∧
    (∀ (t : UntypedAst) (p : Path) (r : UntypedAst), p ∈ enum_nodes_dfs t →
      ∃ t', replace_subtree t p r = some t' ∧ get_subtree t' p = r) := by
  constructor
  · intro t r; cases t <;> rfl
  · intro t p r hp
    exact replace_get_of_validPath r p t (mem_enum_valid t p hp)

/-- C7 witness: read-after-write at the concrete tree
`Sublist [IntLiteral 1, Instruction Plus]`, path `[1]`, replacement
`IntLiteral 9`. -/
theorem replace_then_get_witness :
    ∃ t', replace_subtree (Sublist [IntLiteral 1, Instruction .Plus]) [1] (IntLiteral 9)
        = some t' ∧ get_subtree t' [1] = IntLiteral 9 :=
  replace_then_get.2 (Sublist [IntLiteral 1, Instruction .Plus]) [1] (IntLiteral 9)
    (by decide)

/-- C6, counterexample: for the tree
`Sublist [Sublist [IntLiteral 1], IntLiteral 2]` and the invalid path
`[0, 5]` (second index out of range), `get_subtree` returns the inner
sublist reached at the point of failure — not the original whole tree. -/
theorem get_subtree_invalid_path_not_whole_tree :
    get_subtree (Sublist [Sublist [IntLiteral 1], IntLiteral 2]) [0, 5]
        = Sublist [IntLiteral 1] ∧
    Sublist [IntLiteral 1] ≠ Sublist [Sublist [IntLiteral 1], IntLiteral 2] := by
  exact ⟨by decide, by decide⟩

/-- C6, amended: `get_subtree` never panics on an invalid path; it returns
the node at the longest valid prefix of the path (which is the whole tree
exactly when the path is invalid already at the root). -/
theorem get_subtree_longest_valid_part :
    ∀ (t : UntypedAst) (p : Path),
      validPathB t (longestValidPart t p) = true ∧
      get_subtree t p = get_subtree t (longestValidPart t p) := by
  intro t p
  induction p generalizing t with
  | nil => exact ⟨by cases t <;> rfl, by cases t <;> rfl⟩
  | cons i rest ih =>
      cases t with
      | IntLiteral v => exact ⟨rfl, rfl⟩
      | Instruction op => exact ⟨rfl, rfl⟩
      | Sublist cs =>
          by_cases h : i < cs.length
          · obtain ⟨h1, h2⟩ := ih (cs.get ⟨i, h⟩)
            constructor
            · simp only [longestValidPart, dif_pos h, validPathB]
              simpa using h1
            · simp only [longestValidPart, dif_pos h, get_subtree]
              simpa using h2
          · constructor
            · simp [longestValidPart, h, validPathB]
            · simp [longestValidPart, h, get_subtree]

/-- C5, counterexample: `replace_subtree` with an out-of-range index
(`[5]` into a one-child Sublist) panics (modelled as `none`) instead of
returning the original tree unchanged. -/
theorem replace_subtree_out_of_range_panics :
    replace_subtree (Sublist [IntLiteral 1]) [5] (IntLiteral 2) = none := by
  decide

/-- C5, amended: `replace_subtree` on a path that descends into a leaf
before its indices are exhausted returns the original tree unchanged, but a
path index that is out of range for a `Sublist`'s child count makes it panic
(index out of bounds), not fall back. -/
theorem replace_subtree_leaf_fallback_or_panic :
    (∀ (t : UntypedAst) (p : Path) (r : UntypedAst),
        path_crosses_leaf t p = true → replace_subtree t p r = some t) ∧
    (∀ (cs : List UntypedAst) (i : Nat) (rest : Path) (r : UntypedAst),
        cs.length ≤ i → replace_subtree (.Sublist cs) (i :: rest) r = none) := by
  constructor
  · intro t p r h
    induction p generalizing t with
    | nil => simp [path_crosses_leaf] at h
    | cons i rest ih =>
        cases t with
        | IntLiteral v => rfl
        | Instruction op => rfl
        | Sublist cs =>
            by_cases hi : i < cs.length
            · have h' : path_crosses_leaf (cs.get ⟨i, hi⟩) rest = true := by
                simpa [path_crosses_leaf, hi] using h
              have hrec : replace_subtree cs[i] rest r = some cs[i] :=
                ih (cs.get ⟨i, hi⟩) h'
              have hset : cs.set i cs[i] = cs := list_set_get_self cs i hi
              simp [replace_subtree, hi, hrec, hset]
            · simp [path_crosses_leaf, hi] at h
  · intro cs i rest r h
    simp [replace_subtree, Nat.not_lt.mpr h]

/-- C5 witness: the leaf-crossing fallback at
`Sublist [IntLiteral 1]`, path `[0, 0]`, and the out-of-range panic at
index 5 of the same one-child list. -/
theorem replace_subtree_leaf_fallback_or_panic_witness :
    replace_subtree (Sublist [IntLiteral 1]) [0, 0] (IntLiteral 2)
        = some (Sublist [IntLiteral 1]) ∧
    replace_subtree (Sublist [IntLiteral 1]) [5, 0] (IntLiteral 2) = none :=
  ⟨replace_subtree_leaf_fallback_or_panic.1 (Sublist [IntLiteral 1]) [0, 0]
      (IntLiteral 2) (by decide),
   replace_subtree_leaf_fallback_or_panic.2 [IntLiteral 1] 5 [0] (IntLiteral 2)
      (by decide)⟩

/-! ### Structural distance (`src/offchain/src/gp/population_management.rs`) -/

/-- 32-bit wrap-around: the value of an `i32` arithmetic result under Rust's
release-mode wrapping semantics. -/
def wrap32 (x : Int) : Int := (x + 2147483648) % 4294967296 - 2147483648

/-- `i32::abs` under wrapping semantics (`i32::MIN.abs()` wraps to itself). -/
def abs32 (x : Int) : Int := wrap32 (if x < 0 then -x else x)

mutual

/-- `structural_distance_recursive` from
`src/offchain/src/gp/population_management.rs` (f64 arithmetic modelled
as `ℚ`; the `0.8` depth decay as `4/5`):
- two `IntLiteral`s: `weight * (diff / (1 + diff))` where
  `diff = (val_a - val_b).abs()` on `i32`;
- two `Instruction`s: `0` if same discriminant, else `weight`;
- two `Sublist`s: a length penalty `weight * |len_a - len_b| / (1 + max_len)`
  plus the pairwise distance over the common prefix at weight `* 0.8`;
- mismatched kinds: `weight`. -/
def structural_distance_recursive : UntypedAst → UntypedAst → ℚ → ℚ
  | .IntLiteral va, .IntLiteral vb, weight =>
      let diff : ℚ := ((abs32 (wrap32 (va - vb)) : Int) : ℚ)
      weight * (diff / (1 + diff))
  | .Instruction opa, .Instruction opb, weight =>
      if opa = opb then 0 else weight
  | .Sublist as, .Sublist bs, weight =>
      weight * |((as.length : ℚ)) - ((bs.length : ℚ))| /
          (1 + ((max as.length bs.length : Nat) : ℚ))
        + structural_distance_children as bs (weight * (4 / 5))
  | _, _, weight => weight

/-- The `for i in 0..min_len` loop of the `Sublist` arm: pairwise recursive
distance over the positionally aligned common-length prefix. -/
def structural_distance_children : List UntypedAst → List UntypedAst → ℚ → ℚ
  | a :: as, b :: bs, w =>
      structural_distance_recursive a b w + structural_distance_children as bs w
  | _, _, _ => 0

end

/-- `structural_distance` from
`src/offchain/src/gp/population_management.rs`: root call at weight `1.0`. -/
def structural_distance (a b : UntypedAst) : ℚ :=
  structural_distance_recursive a b 1

theorem abs32_wrap32_neg (x : Int) :
    abs32 (wrap32 (-x)) = abs32 (wrap32 x) := by
  simp only [abs32, wrap32]
  split_ifs <;> omega

theorem structural_distance_children_symm :
    ∀ (as bs : List UntypedAst) (w : ℚ),
      (∀ a ∈ as, ∀ (b : UntypedAst) (w' : ℚ),
        structural_distance_recursive a b w' = structural_distance_recursive b a w') →
      structural_distance_children as bs w = structural_distance_children bs as w := by
  intro as
  induction as with
  | nil => intro bs w _; cases bs <;> rfl
  | cons a as' ih =>
      intro bs w hsym
      cases bs with
      | nil => rfl
      | cons b bs' =>
          simp only [structural_distance_children]
          rw [hsym a (List.mem_cons_self a as') b w,
            ih bs' w (fun x hx => hsym x (List.mem_cons_of_mem a hx))]

theorem structural_distance_recursive_symm :
    ∀ (a b : UntypedAst) (w : ℚ),
      structural_distance_recursive a b w = structural_distance_recursive b a w := by
  intro a
  induction a using UntypedAst.inductionOn with
  | lit va =>
      intro b w
      cases b with
      | IntLiteral vb =>
          simp only [structural_distance_recursive]
          have : abs32 (wrap32 (va - vb)) = abs32 (wrap32 (vb - va)) := by
            have := abs32_wrap32_neg (va - vb)
            simpa [neg_sub] using this.symm
          rw [this]
      | Instruction op => rfl
      | Sublist cs => rfl
  | ins opa =>
      intro b w
      cases b with
      | IntLiteral vb => rfl
      | Instruction opb =>
          simp only [structural_distance_recursive]
          by_cases h : opa = opb
          · simp [h]
          · have h' : ¬opb = opa := fun hba => h hba.symm
            simp [h, h']
      | Sublist cs => rfl
  | sub as ih =>
      intro b w
      cases b with
      | IntLiteral vb => rfl
      | Instruction opb => rfl
      | Sublist bs =>
          simp only [structural_distance_recursive]
          rw [structural_distance_children_symm as bs _ ih, abs_sub_comm,
            Nat.max_comm]

/-- C8: `structural_distance` is symmetric. -/
theorem structural_distance_symm (a b : UntypedAst) :
    structural_distance a b = structural_distance b a :=
  structural_distance_recursive_symm a b 1

theorem structural_distance_children_self :
    ∀ (as : List UntypedAst) (w : ℚ),
      (∀ a ∈ as, ∀ w' : ℚ, structural_distance_recursive a a w' = 0) →
      structural_distance_children as as w = 0 := by
  intro as
  induction as with
  | nil => intro w _; rfl
  | cons a as' ih =>
      intro w h
      simp only [structural_distance_children]
      rw [h a (List.mem_cons_self a as') w,
        ih w (fun x hx => h x (List.mem_cons_of_mem a hx))]
      ring

theorem structural_distance_recursive_self :
    ∀ (a : UntypedAst) (w : ℚ), structural_distance_recursive a a w = 0 := by
  intro a
  induction a using UntypedAst.inductionOn with
  | lit v =>
      intro w
      simp [structural_distance_recursive, abs32, wrap32]
  | ins op =>
      intro w
      simp [structural_distance_recursive]
  | sub cs ih =>
      intro w
      simp only [structural_distance_recursive]
      rw [structural_distance_children_self cs _ ih]
      simp

/-- The distance from any tree to itself is zero. -/
theorem structural_distance_self (a : UntypedAst) : structural_distance a a = 0 :=
  structural_distance_recursive_self a 1

/-! ### Random source model -/

/-- The injected `rand::Rng` source: an infinite stream of naturals,
threaded explicitly; each sampling primitive consumes the head. -/
def RNG : Type := Nat → Nat

/-- Advance the stream by one consumed value. -/
def RNG.tail (g : RNG) : RNG := fun n => g (n + 1)

/-- `rng.gen_range(lo..hi)` on unsigned integers: a value in `[lo, hi)`
(Rust panics when the range is empty; callers below either rule that out or
surface it as `Option`). -/
def genRange (lo hi : Nat) (g : RNG) : Nat × RNG :=
  (lo + g 0 % (hi - lo), RNG.tail g)

/-- `rng.gen_range(lo..hi)` on signed integers: a value in `[lo, hi)`. -/
def genRangeInt (lo hi : Int) (g : RNG) : Int × RNG :=
  (lo + (g 0 : Int) % (hi - lo), RNG.tail g)

/-- `rng.gen::<bool>()`. -/
def genBool (g : RNG) : Bool × RNG := (g 0 % 2 == 1, RNG.tail g)

/-- `rng.gen::<f64>()`: a uniform value in `[0, 1)`, modelled in `ℚ`. -/
def genF64 (g : RNG) : ℚ × RNG := (((g 0 % 9007199254740992 : Nat) : ℚ) / 9007199254740992, RNG.tail g)

/-! ### Size-controlled random generator (`src/offchain/src/gp/generate_spec.rs`) -/

/-- `InstructionAtom` from `src/offchain/src/gp/generate_spec.rs`. -/
inductive InstructionAtom : Type
  | Opcode : OpCode → InstructionAtom
  | EphemeralInt : InstructionAtom
deriving DecidableEq, Repr

/-- `InstructionSet` from `src/offchain/src/gp/generate_spec.rs`. -/
structure InstructionSet : Type where
  atoms : List InstructionAtom
deriving DecidableEq, Repr

/-- `InstructionSet::new_default`.  The source additionally lists atom names
(`GreaterThan` … `IfElse`) that do not exist in the `OpCode` enum of
`src/offchain/src/compiler/ast.rs`; the atoms below are the constructible
ones. -/
def InstructionSet.new_default : InstructionSet :=
  ⟨[.Opcode .Noop, .Opcode .Plus, .Opcode .Minus, .Opcode .Mult,
    .Opcode .Dup, .Opcode .Pop, .EphemeralInt]⟩

/-- `InstructionSet::random_atom_as_ast`: index a random atom; an `Opcode`
atom yields an `Instruction` leaf, `EphemeralInt` yields a fresh
`IntLiteral` in `[-30, 30)`.  (Indexing is total here via a `Noop` default;
Rust panics on an empty atom set, which callers rule out.) -/
def InstructionSet.random_atom_as_ast (iset : InstructionSet) (g : RNG) :
    UntypedAst × RNG :=
  let idx := (genRange 0 iset.atoms.length g).1
  let g' := (genRange 0 iset.atoms.length g).2
  match iset.atoms.getD idx (InstructionAtom.Opcode OpCode.Noop) with
  | .Opcode op => (.Instruction op, g')
  | .EphemeralInt => (.IntLiteral (genRangeInt (-30) 30 g').1, (genRangeInt (-30) 30 g').2)

/-- `decompose` from `src/offchain/src/gp/generate_spec.rs`: split `number`
into random positive parts.  The source tests `number == 1 || max_parts == 1`;
this model widens the guard to `≤ 1`, which only differs where the source
panics (an empty `gen_range(1..0)` for `number = 0`) or underflows
(`max_parts = 0`), cases unreachable from `random_code_with_size`. -/
def decompose (g : RNG) (number max_parts : Nat) : List Nat × RNG :=
  if number ≤ 1 ∨ max_parts ≤ 1 then ([number], g)
  else
    let this_part := (genRange 1 number g).1
    let g' := (genRange 1 number g).2
    let rest := decompose g' (number - this_part) (max_parts - 1)
    (this_part :: rest.1, rest.2)
termination_by number
decreasing_by
  simp only [genRange]
  omega

theorem decompose_sum :
    ∀ (number : Nat) (g : RNG) (max_parts : Nat), 1 ≤ number →
      ((decompose g number max_parts).1).sum = number := by
  intro number
  induction number using Nat.strong_induction_on with
  | _ number ih =>
      intro g max_parts h1
      rw [decompose.eq_def]
      by_cases hg : number ≤ 1 ∨ max_parts ≤ 1
      · simp [hg]
      · push_neg at hg
        have h2 : 2 ≤ number := hg.1
        simp only [hg, if_neg (by omega : ¬(number ≤ 1 ∨ max_parts ≤ 1))]
        have hpart : 1 + g 0 % (number - 1) ≤ number - 1 := by
          have : g 0 % (number - 1) < number - 1 := Nat.mod_lt _ (by omega)
          omega
        have hrem := ih (number - (1 + g 0 % (number - 1))) (by omega)
          (RNG.tail g) (max_parts - 1) (by omega)
        simp only [genRange, List.sum_cons]
        omega

theorem decompose_pos :
    ∀ (number : Nat) (g : RNG) (max_parts : Nat), 1 ≤ number →
      ∀ p ∈ (decompose g number max_parts).1, 1 ≤ p := by
  intro number
  induction number using Nat.strong_induction_on with
  | _ number ih =>
      intro g max_parts h1 p hp
      rw [decompose.eq_def] at hp
      by_cases hg : number ≤ 1 ∨ max_parts ≤ 1
      · simp [hg] at hp
        omega
      · push_neg at hg
        simp only [hg, if_neg (by omega : ¬(number ≤ 1 ∨ max_parts ≤ 1)),
          genRange, List.mem_cons] at hp
        rcases hp with hp | hp
        · omega
        · have hpart : 1 + g 0 % (number - 1) ≤ number - 1 := by
            have : g 0 % (number - 1) < number - 1 := Nat.mod_lt _ (by omega)
            omega
          exact ih (number - (1 + g 0 % (number - 1))) (by omega)
            (RNG.tail g) (max_parts - 1) (by omega) p hp

theorem decompose_le (number : Nat) (g : RNG) (max_parts : Nat) (h1 : 1 ≤ number) :
    ∀ p ∈ (decompose g number max_parts).1, p ≤ number := by
  intro p hp
  have hsum := decompose_sum number g max_parts h1
  calc p ≤ ((decompose g number max_parts).1).sum :=
        List.single_le_sum (fun x _ => Nat.zero_le x) p hp
    _ = number := hsum

/-- The `rand` crate's `SliceRandom::shuffle` (library code outside this
repository), modelled as repeated extraction at a freshly drawn random
index; the development relies only on the result being a permutation of the
input. -/
def shuffleModel : List UntypedAst → RNG → List UntypedAst × RNG
  | [], g => ([], g)
  | x :: xs, g =>
      let i := g 0 % (x :: xs).length
      let rest := shuffleModel ((x :: xs).eraseIdx i) (RNG.tail g)
      ((x :: xs).get ⟨i, Nat.mod_lt _ (by simp)⟩ :: rest.1, rest.2)
termination_by l => l.length
decreasing_by
  simp [List.length_eraseIdx, Nat.mod_lt]

theorem get_cons_eraseIdx_perm {α : Type} (l : List α) (i : Nat) (h : i < l.length) :
    (l.get ⟨i, h⟩ :: l.eraseIdx i).Perm l := by
  have h1 : l.eraseIdx i = l.take i ++ l.drop (i + 1) :=
    List.eraseIdx_eq_take_drop_succ l i
  have h2 : l.get ⟨i, h⟩ :: l.drop (i + 1) = l.drop i :=
    List.getElem_cons_drop l i h
  rw [h1]
  have step2 : List.Perm (l.get ⟨i, h⟩ :: (l.take i ++ l.drop (i + 1)))
      (l.take i ++ l.get ⟨i, h⟩ :: l.drop (i + 1)) := List.perm_middle.symm
  have step3 : l.take i ++ l.get ⟨i, h⟩ :: l.drop (i + 1) = l := by
    rw [h2, List.take_append_drop]
  rw [step3] at step2
  exact step2

theorem shuffleModel_perm_aux :
    ∀ (n : Nat) (l : List UntypedAst), l.length ≤ n → ∀ g : RNG,
      (shuffleModel l g).1.Perm l := by
  intro n
  induction n with
  | zero =>
      intro l hl g
      have : l = [] := List.length_eq_zero.mp (Nat.le_zero.mp hl)
      subst this
      simp [shuffleModel]
  | succ n ih =>
      intro l hl g
      cases l with
      | nil => simp [shuffleModel]
      | cons x xs =>
          rw [shuffleModel]
          have hi : g 0 % (x :: xs).length < (x :: xs).length :=
            Nat.mod_lt _ (by simp)
          have hlen : ((x :: xs).eraseIdx (g 0 % (x :: xs).length)).length ≤ n := by
            rw [List.length_eraseIdx_of_lt hi]
            simpa using Nat.le_of_succ_le_succ hl
          have hrec := ih ((x :: xs).eraseIdx (g 0 % (x :: xs).length)) hlen (RNG.tail g)
          exact (List.Perm.cons _ hrec).trans (get_cons_eraseIdx_perm _ _ hi)

mutual

/-- `random_code_with_size` from `src/offchain/src/gp/generate_spec.rs`:
`points = 1` yields a single random atom; otherwise `points - 1` is split by
`decompose`, one child is generated per part, and the children are shuffled
into a `Sublist`.  (The guard is `≤ 1` rather than `= 1` only to totalise
the `points = 0` case, where the Rust code underflows `points - 1`.) -/
def random_code_with_size (iset : InstructionSet) (points : Nat) (g : RNG) :
    UntypedAst × RNG :=
  if hp : points ≤ 1 then iset.random_atom_as_ast g
  else
    let d := decompose g (points - 1) (points - 1)
    have hb : ∀ sp ∈ d.1, sp < points := by
      intro sp hsp
      have := decompose_le (points - 1) g (points - 1) (by omega) sp hsp
      omega
    let c := gen_subcodes iset points d.1 hb d.2
    let s := shuffleModel c.1 c.2
    (.Sublist s.1, s.2)
termination_by (points, 1, 0)

/-- The `subpoints_list.into_iter().map(|sp| random_code_with_size(..))`
loop: one recursive generation per part, threading the random source; the
bound argument records that every part is below the parent's budget. -/
def gen_subcodes (iset : InstructionSet) (b : Nat) :
    (parts : List Nat) → (∀ sp ∈ parts, sp < b) → RNG → List UntypedAst × RNG
  | [], _, g => ([], g)
  | sp :: rest, h, g =>
      have hsp : sp < b := h sp (List.mem_cons_self sp rest)
      let c := random_code_with_size iset sp g
      let cs := gen_subcodes iset b rest
        (fun x hx => h x (List.mem_cons_of_mem sp hx)) c.2
      (c.1 :: cs.1, cs.2)
termination_by parts _ g => (b, 0, parts.length)

end

theorem random_atom_as_ast_size (iset : InstructionSet) (g : RNG) :
    get_subtree_size (iset.random_atom_as_ast g).1 = 1 := by
  rw [InstructionSet.random_atom_as_ast]
  cases iset.atoms.getD ((genRange 0 iset.atoms.length g).1)
      (InstructionAtom.Opcode OpCode.Noop) <;>
    simp [get_subtree_size]

theorem sizeSum_perm {l l' : List UntypedAst} (h : l.Perm l') :
    sizeSum l = sizeSum l' := by
  rw [sizeSum_eq_map_sum, sizeSum_eq_map_sum]
  exact (h.map get_subtree_size).sum_eq

theorem gen_subcodes_sizes (iset : InstructionSet)
    (hsz : ∀ sp g, 1 ≤ sp → sp < b →
      get_subtree_size (random_code_with_size iset sp g).1 = sp) :
    ∀ (parts : List Nat) (hb : ∀ sp ∈ parts, sp < b) (g : RNG),
      (∀ sp ∈ parts, 1 ≤ sp) →
      sizeSum (gen_subcodes iset b parts hb g).1 = parts.sum := by
  intro parts
  induction parts with
  | nil => intro hb g _; simp [gen_subcodes, sizeSum]
  | cons sp rest ih =>
      intro hb g hpos
      rw [gen_subcodes]
      simp only [sizeSum, List.sum_cons]
      rw [hsz sp g (hpos sp (List.mem_cons_self sp rest)) (hb sp (List.mem_cons_self sp rest)),
        ih _ _ (fun x hx => hpos x (List.mem_cons_of_mem sp hx))]

theorem random_code_with_size_size (iset : InstructionSet) :
    ∀ (points : Nat), 1 ≤ points → ∀ (g : RNG),
      get_subtree_size (random_code_with_size iset points g).1 = points := by
  intro points
  induction points using Nat.strong_induction_on with
  | _ points ih =>
      intro hpts g
      by_cases hp : points ≤ 1
      · have : points = 1 := by omega
        rw [random_code_with_size, dif_pos hp, random_atom_as_ast_size, this]
      · have hb : ∀ sp ∈ (decompose g (points - 1) (points - 1)).1, sp < points := by
          intro sp hsp
          have := decompose_le (points - 1) g (points - 1) (by omega) sp hsp
          omega
        rw [random_code_with_size, dif_neg hp]
        simp only [get_subtree_size]
        have hperm := shuffleModel_perm_aux
          ((gen_subcodes iset points (decompose g (points - 1) (points - 1)).1 hb
            (decompose g (points - 1) (points - 1)).2).1).length
          ((gen_subcodes iset points (decompose g (points - 1) (points - 1)).1 hb
            (decompose g (points - 1) (points - 1)).2).1)
          (le_refl _)
          ((gen_subcodes iset points (decompose g (points - 1) (points - 1)).1 hb
            (decompose g (points - 1) (points - 1)).2).2)
        rw [sizeSum_perm hperm]
        rw [gen_subcodes_sizes iset
          (fun sp g' h1 h2 => ih sp h2 h1 g')
          (decompose g (points - 1) (points - 1)).1 hb
          (decompose g (points - 1) (points - 1)).2
          (decompose_pos (points - 1) g (points - 1) (by omega))]
        rw [decompose_sum (points - 1) g (points - 1) (by omega)]
        omega

/-- `random_code` from `src/offchain/src/gp/generate_spec.rs`: choose
`actual_points` uniformly in `[1, max_points]`, then generate a tree of
exactly that size. -/
def random_code (g : RNG) (iset : InstructionSet) (max_points : Nat) :
    UntypedAst × RNG :=
  random_code_with_size iset (genRange 1 (max_points + 1) g).1
    (genRange 1 (max_points + 1) g).2

/-- C3: for every random source and every points budget `n ≥ 1`,
`random_code_with_size` returns a tree of node count exactly `n`; and
`random_code(max_points)` returns a tree whose node count equals the chosen
budget `1 + g 0 % max_points`, which lies in `[1, max_points]`. -/
theorem random_code_size_exact (iset : InstructionSet) (g : RNG) (n m : Nat)
    (hn : 1 ≤ n) (hm : 1 ≤ m) (hatoms : iset.atoms ≠ []) :
    get_subtree_size (random_code_with_size iset n g).1 = n ∧
    1 ≤ 1 + g 0 % m ∧ 1 + g 0 % m ≤ m ∧
    get_subtree_size (random_code g iset m).1 = 1 + g 0 % m := by
  refine ⟨random_code_with_size_size iset n hn g, by omega, ?_, ?_⟩
  · have := Nat.mod_lt (g 0) (show 0 < m by omega)
    omega
  · rw [random_code]
    have hchosen : (genRange 1 (m + 1) g).1 = 1 + g 0 % m := by
      simp [genRange]
    rw [hchosen]
    exact random_code_with_size_size iset (1 + g 0 % m) (by omega)
      (genRange 1 (m + 1) g).2

/-- C3 witness: the default instruction set, the all-zero stream, budget 3
and `max_points` 4. -/
theorem random_code_size_exact_witness :
    get_subtree_size (random_code_with_size InstructionSet.new_default 3 (fun _ => 0)).1 = 3 ∧
    1 ≤ 1 + (fun _ : Nat => 0) 0 % 4 ∧ 1 + (fun _ : Nat => 0) 0 % 4 ≤ 4 ∧
    get_subtree_size (random_code (fun _ => 0) InstructionSet.new_default 4).1
      = 1 + (fun _ : Nat => 0) 0 % 4 :=
  random_code_size_exact InstructionSet.new_default (fun _ => 0) 3 4
    (by omega) (by omega) (by decide)

/-! ### Shrink (`src/offchain/src/gp/mutation.rs`) -/

/-- `shrink_ast` from `src/offchain/src/gp/mutation.rs`, with an explicit
recursion-depth fuel.  The Rust function is unboundedly recursive; `none`
means that `fuel` nested calls did not reach a return, so a result of
`none` for every fuel is non-termination of the source.  One step: leaves
and empty sublists return unchanged; with more than one child a random
child is removed; then, if the result is still over `target_size` (and the
original child list was non-empty), recurse on the result. -/
def shrink_ast_fuel : Nat → UntypedAst → RNG → Nat → Option (UntypedAst × RNG)
  | 0, _, _, _ => none
  | _ + 1, .IntLiteral v, g, _ => some (.IntLiteral v, g)
  | _ + 1, .Instruction op, g, _ => some (.Instruction op, g)
  | fuel + 1, .Sublist cs, g, target_size =>
      if cs.isEmpty then some (.Sublist cs, g)
      else
        let cs' := if 1 < cs.length then cs.eraseIdx ((genRange 0 cs.length g).1) else cs
        let g' := if 1 < cs.length then (genRange 0 cs.length g).2 else g
        if get_subtree_size (.Sublist cs') > target_size ∧ ¬cs.isEmpty then
          shrink_ast_fuel fuel (.Sublist cs') g' target_size
        else some (.Sublist cs', g')

/-- C4: the claim of termination is false.  On the single-child sublist
`Sublist [IntLiteral 1]` with target size 1, no child can be removed
(`len ≤ 1`) yet the size check keeps triggering recursion on the unchanged
tree: no amount of fuel reaches a result, i.e. the Rust recursion never
terminates. -/
theorem shrink_ast_diverges_on_singleton_sublist :
    ∀ (fuel : Nat) (g : RNG),
      shrink_ast_fuel fuel (.Sublist [.IntLiteral 1]) g 1 = none := by
  intro fuel
  induction fuel with
  | zero => intro g; rfl
  | succ n ih =>
      intro g
      rw [shrink_ast_fuel]
      norm_num [get_subtree_size, sizeSum]
      exact ih g

/-! ### Point mutation (`src/offchain/src/gp/mutation.rs`) -/

/-- `i32::saturating_add`. -/
def sat_add32 (a b : Int) : Int := max (-2147483648) (min 2147483647 (a + b))

/-- The resampling table of the `Instruction` arm of
`point_mutate_recursive` (`match rng.gen_range(0..6)`). -/
def resample_opcode (k : Nat) (op : OpCode) : OpCode :=
  match k with
  | 0 => .Noop
  | 1 => .Plus
  | 2 => .Minus
  | 3 => .Mult
  | 4 => .Dup
  | 5 => .Pop
  | _ => op

/-- The insertion table of the structural branch
(`match rng.gen_range(0..5)`). -/
def insert_opcode : Nat → OpCode
  | 0 => .Plus
  | 1 => .Minus
  | 2 => .Mult
  | 3 => .Dup
  | _ => .Pop

/-- `Vec::insert(i, a)`: insert `a` at position `i ≤ len`. -/
def rust_insert (l : List UntypedAst) (i : Nat) (a : UntypedAst) :
    List UntypedAst :=
  l.take i ++ a :: l.drop i

/-- The `else if modified_children.len() < 8` half of the structural branch
of `point_mutate_recursive`: insert one simple random leaf (an `IntLiteral`
in `[-10, 10]` or a base instruction) at a random position. -/
def insert_child_branch (children : List UntypedAst) (g : RNG) :
    List UntypedAst × RNG :=
  if children.length < 8 then
    let b := (genBool g).1
    let g1 := (genBool g).2
    let new_child :=
      if b then UntypedAst.IntLiteral (genRangeInt (-10) 11 g1).1
      else UntypedAst.Instruction (insert_opcode (genRange 0 5 g1).1)
    let g2 := if b then (genRangeInt (-10) 11 g1).2 else (genRange 0 5 g1).2
    (rust_insert children ((genRange 0 (children.length + 1) g2).1) new_child,
      (genRange 0 (children.length + 1) g2).2)
  else (children, g)

/-- The structural add/remove branch of the `Sublist` arm of
`point_mutate_recursive`: with more than one child, a coin decides between
removing a random child and falling through to the insertion branch; with at
most one child, removal is blocked and only insertion is considered. -/
def structural_edit (children : List UntypedAst) (g : RNG) :
    List UntypedAst × RNG :=
  if 1 < children.length then
    let b := (genBool g).1
    let g1 := (genBool g).2
    if b then
      (children.eraseIdx ((genRange 0 children.length g1).1),
        (genRange 0 children.length g1).2)
    else insert_child_branch children g1
  else insert_child_branch children g

mutual

/-- `point_mutate_recursive` from `src/offchain/src/gp/mutation.rs`: every
node draws an independent trial against `mutation_rate`; a hit nudges an
`IntLiteral` by a saturating `±5` delta, resamples an `Instruction`, or (for
a `Sublist`, after unconditionally recursing into the children) opens a
secondary 30% chance of a structural child insertion/removal. -/
def point_mutate_recursive : UntypedAst → RNG → ℚ → UntypedAst × RNG
  | .IntLiteral val, g, rate =>
      let g1 := (genF64 g).2
      if (genF64 g).1 < rate then
        (.IntLiteral (sat_add32 val (genRangeInt (-5) 6 g1).1),
          (genRangeInt (-5) 6 g1).2)
      else (.IntLiteral val, g1)
  | .Instruction op, g, rate =>
      let g1 := (genF64 g).2
      if (genF64 g).1 < rate then
        (.Instruction (resample_opcode (genRange 0 6 g1).1 op),
          (genRange 0 6 g1).2)
      else (.Instruction op, g1)
  | .Sublist cs, g, rate =>
      let g1 := (genF64 g).2
      let rec_pair := point_mutate_children cs g1 rate
      if (genF64 g).1 < rate then
        let g2 := (genF64 rec_pair.2).2
        if (genF64 rec_pair.2).1 < 3 / 10 then
          let e := structural_edit rec_pair.1 g2
          (.Sublist e.1, e.2)
        else (.Sublist rec_pair.1, g2)
      else (.Sublist rec_pair.1, rec_pair.2)

/-- The `children.iter().map(point_mutate_recursive).collect()` loop,
threading the random source left to right. -/
def point_mutate_children : List UntypedAst → RNG → ℚ → List UntypedAst × RNG
  | [], g, _ => ([], g)
  | c :: cs, g, rate =>
      let c' := point_mutate_recursive c g rate
      let cs' := point_mutate_children cs c'.2 rate
      (c'.1 :: cs'.1, cs'.2)

end

/-- `point_mutate` from `src/offchain/src/gp/mutation.rs`. -/
def point_mutate (original : UntypedAst) (g : RNG) (mutation_rate : ℚ) :
    UntypedAst × RNG :=
  point_mutate_recursive original g mutation_rate

mutual

/-- The largest child count of any `Sublist` node in a tree (0 when the
tree contains no `Sublist`). -/
def max_child_count : UntypedAst → Nat
  | .IntLiteral _ => 0
  | .Instruction _ => 0
  | .Sublist cs => max cs.length (max_child_count_list cs)

/-- `max_child_count` over a list of subtrees. -/
def max_child_count_list : List UntypedAst → Nat
  | [] => 0
  | c :: cs => max (max_child_count c) (max_child_count_list cs)

end

/-- The child count of the root when it is a `Sublist` (0 for leaves). -/
def root_child_count : UntypedAst → Nat
  | .Sublist cs => cs.length
  | _ => 0

theorem mccl_append (l1 l2 : List UntypedAst) :
    max_child_count_list (l1 ++ l2)
      = max (max_child_count_list l1) (max_child_count_list l2) := by
  induction l1 with
  | nil => simp [max_child_count_list]
  | cons c cs ih =>
      simp only [List.cons_append, max_child_count_list, List.append_eq]
      rw [ih]
      omega

theorem mcc_mem_le (l : List UntypedAst) :
    ∀ c ∈ l, max_child_count c ≤ max_child_count_list l := by
  induction l with
  | nil => intro c hc; simp at hc
  | cons x xs ih =>
      intro c hc
      rcases List.mem_cons.mp hc with h | h
      · subst h; simp [max_child_count_list]
      · have := ih c h
        simp only [max_child_count_list]
        omega

theorem mccl_le_of_forall (l : List UntypedAst) (k : Nat)
    (h : ∀ c ∈ l, max_child_count c ≤ k) : max_child_count_list l ≤ k := by
  induction l with
  | nil => simp [max_child_count_list]
  | cons x xs ih =>
      simp only [max_child_count_list]
      have h1 := h x (List.mem_cons_self x xs)
      have h2 := ih (fun c hc => h c (List.mem_cons_of_mem x hc))
      omega

theorem mccl_eraseIdx (l : List UntypedAst) (i : Nat) :
    max_child_count_list (l.eraseIdx i) ≤ max_child_count_list l :=
  mccl_le_of_forall _ _
    (fun c hc => mcc_mem_le l c ((l.eraseIdx_sublist i).mem hc))

theorem mccl_rust_insert (l : List UntypedAst) (i : Nat) (a : UntypedAst) :
    max_child_count_list (rust_insert l i a)
      ≤ max (max_child_count a) (max_child_count_list l) := by
  have hsplit : max_child_count_list l
      = max (max_child_count_list (l.take i)) (max_child_count_list (l.drop i)) := by
    conv_lhs => rw [← List.take_append_drop i l]
    exact mccl_append _ _
  simp only [rust_insert, mccl_append, max_child_count_list]
  omega

theorem rust_insert_length (l : List UntypedAst) (i : Nat) (a : UntypedAst)
    (h : i ≤ l.length) : (rust_insert l i a).length = l.length + 1 := by
  simp [rust_insert]
  omega

theorem insert_child_branch_length (cs : List UntypedAst) (g : RNG) :
    (insert_child_branch cs g).1.length
      = if cs.length < 8 then cs.length + 1 else cs.length := by
  rw [insert_child_branch]
  by_cases h : cs.length < 8
  · have hidx : ∀ g2 : RNG, (genRange 0 (cs.length + 1) g2).1 ≤ cs.length := by
      intro g2
      simp only [genRange, Nat.sub_zero, Nat.zero_add]
      exact Nat.le_of_lt_succ (Nat.mod_lt _ (Nat.succ_pos _))
    simp only [if_pos h]
    rw [rust_insert_length _ _ _ (hidx _)]
  · simp [if_neg h]

theorem insert_child_branch_mccl (cs : List UntypedAst) (g : RNG) :
    max_child_count_list (insert_child_branch cs g).1
      ≤ max_child_count_list cs := by
  rw [insert_child_branch]
  by_cases h : cs.length < 8
  · simp only [if_pos h]
    refine le_trans (mccl_rust_insert _ _ _) ?_
    by_cases hb : (genBool g).1 <;>
      simp [hb, max_child_count]
  · simp [if_neg h]

theorem structural_edit_length (cs : List UntypedAst) (g : RNG) :
    (structural_edit cs g).1.length
      ≤ if cs.length < 8 then cs.length + 1 else cs.length := by
  rw [structural_edit]
  by_cases h1 : 1 < cs.length
  · simp only [if_pos h1]
    by_cases hb : (genBool g).1
    · simp only [if_pos hb]
      rw [List.length_eraseIdx_of_lt]
      · split_ifs <;> omega
      · simp only [genRange, Nat.sub_zero, Nat.zero_add]
        exact Nat.mod_lt _ (by omega)
    · simp only [if_neg hb]
      rw [insert_child_branch_length]
  · simp only [if_neg h1]
    rw [insert_child_branch_length]

theorem structural_edit_mccl (cs : List UntypedAst) (g : RNG) :
    max_child_count_list (structural_edit cs g).1
      ≤ max_child_count_list cs := by
  rw [structural_edit]
  by_cases h1 : 1 < cs.length
  · simp only [if_pos h1]
    by_cases hb : (genBool g).1
    · simp only [if_pos hb]
      exact mccl_eraseIdx _ _
    · simp only [if_neg hb]
      exact insert_child_branch_mccl _ _
  · simp only [if_neg h1]
    exact insert_child_branch_mccl _ _

theorem point_mutate_children_spec (cs : List UntypedAst)
    (hA : ∀ c ∈ cs, ∀ (g : RNG) (rate : ℚ),
      max_child_count (point_mutate_recursive c g rate).1
        ≤ max 8 (max_child_count c)) :
    ∀ (g : RNG) (rate : ℚ),
      (point_mutate_children cs g rate).1.length = cs.length ∧
      max_child_count_list (point_mutate_children cs g rate).1
        ≤ max 8 (max_child_count_list cs) := by
  induction cs with
  | nil => intro g rate; simp [point_mutate_children, max_child_count_list]
  | cons c cs' ih =>
      intro g rate
      rw [point_mutate_children]
      obtain ⟨hl, hm⟩ := ih (fun x hx g' r' => hA x (List.mem_cons_of_mem c hx) g' r')
        ((point_mutate_recursive c g rate).2) rate
      constructor
      · simp [hl]
      · simp only [max_child_count_list]
        have h1 := hA c (List.mem_cons_self c cs') g rate
        omega

theorem point_mutate_recursive_mcc (t : UntypedAst) :
    ∀ (g : RNG) (rate : ℚ),
      max_child_count (point_mutate_recursive t g rate).1
        ≤ max 8 (max_child_count t) := by
  induction t using UntypedAst.inductionOn with
  | lit v =>
      intro g rate
      rw [point_mutate_recursive]
      split_ifs <;> simp [max_child_count]
  | ins op =>
      intro g rate
      rw [point_mutate_recursive]
      split_ifs <;> simp [max_child_count]
  | sub cs ih =>
      intro g rate
      rw [point_mutate_recursive]
      obtain ⟨hl, hm⟩ := point_mutate_children_spec cs ih ((genF64 g).2) rate
      by_cases hs : (genF64 g).1 < rate
      · simp only [if_pos hs]
        by_cases hq :
            (genF64 (point_mutate_children cs (genF64 g).2 rate).2).1 < 3 / 10
        · simp only [if_pos hq, max_child_count]
          have hel := structural_edit_length
            (point_mutate_children cs (genF64 g).2 rate).1
            (genF64 (point_mutate_children cs (genF64 g).2 rate).2).2
          have hem := structural_edit_mccl
            (point_mutate_children cs (genF64 g).2 rate).1
            (genF64 (point_mutate_children cs (genF64 g).2 rate).2).2
          rw [hl] at hel
          split_ifs at hel <;> omega
        · simp only [if_neg hq, max_child_count]
          omega
      · simp only [if_neg hs, max_child_count]
        omega

/-- C10: the structural insertion branch of `point_mutate` fires only on a
`Sublist` with fewer than 8 children, so every `Sublist` node of the output
has at most `max 8 c` children (`c` the corresponding input child count),
and the root child count grows by at most one — and only when it was below
8. -/
theorem point_mutate_child_count_bound :
    (∀ (t : UntypedAst) (g : RNG) (rate : ℚ),
      max_child_count (point_mutate t g rate).1 ≤ max 8 (max_child_count t)) ∧
    (∀ (cs : List UntypedAst) (g : RNG) (rate : ℚ),
      root_child_count (point_mutate (.Sublist cs) g rate).1
        ≤ if cs.length < 8 then cs.length + 1 else cs.length) := by
  constructor
  · intro t g rate
    exact point_mutate_recursive_mcc t g rate
  · intro cs g rate
    rw [point_mutate, point_mutate_recursive]
    obtain ⟨hl, hm⟩ := point_mutate_children_spec cs
      (fun c _ g' r' => point_mutate_recursive_mcc c g' r') ((genF64 g).2) rate
    by_cases hs : (genF64 g).1 < rate
    · simp only [if_pos hs]
      by_cases hq :
          (genF64 (point_mutate_children cs (genF64 g).2 rate).2).1 < 3 / 10
      · simp only [if_pos hq, root_child_count]
        have hel := structural_edit_length
          (point_mutate_children cs (genF64 g).2 rate).1
          (genF64 (point_mutate_children cs (genF64 g).2 rate).2).2
        rw [hl] at hel
        exact hel
      · simp only [if_neg hq, root_child_count]
        rw [hl]
        split_ifs <;> omega
    · simp only [if_neg hs, root_child_count]
      rw [hl]
      split_ifs <;> omega

/-! ### Population management (`src/offchain/src/gp/population_management.rs`) -/

/-- `PopulationStats` from `src/offchain/src/gp/population_management.rs`. -/
structure PopulationStats : Type where
  avg_fitness : ℚ
  fitness_std : ℚ
  avg_size : ℚ
  size_std : ℚ
  diversity_score : ℚ
  stagnation_count : Nat
deriving DecidableEq, Repr

/-- `Individual` from `src/offchain/src/gp/population_management.rs`
(fitness and novelty are `f64` in the source, modelled as `ℚ`). -/
structure Individual : Type where
  ast : UntypedAst
  fitness : ℚ
  size : Nat
  age : Nat
  novelty_score : ℚ
deriving DecidableEq, Repr

instance : Inhabited Individual := ⟨⟨.Sublist [], 0, 1, 0, 0⟩⟩

/-- `Individual::new`. -/
def Individual.new (ast : UntypedAst) (fitness : ℚ) : Individual :=
  ⟨ast, fitness, get_subtree_size ast, 0, 0⟩

/-- `calculate_novelty_score`: populations smaller than 2 report the 1.0
sentinel; otherwise the average distance to the
`k = clamp(len/4, 5, len-1)` nearest neighbours. -/
def calculate_novelty_score (individual : UntypedAst)
    (population : List Individual) : ℚ :=
  if population.length < 2 then 1
  else
    let k := min (max (population.length / 4) 5) (population.length - 1)
    let distances := population.map
      (fun other => structural_distance individual other.ast)
    let sorted := distances.mergeSort (fun x y => decide (x ≤ y))
    (sorted.take k).sum / (k : ℚ)

/-- `age_population`: increment every age by one. -/
def age_population (population : List Individual) : List Individual :=
  population.map (fun ind => { ind with age := ind.age + 1 })

/-- The triangular sharing function of `apply_fitness_sharing`:
`1 - d/sigma` when `d < sigma`, else `0`. -/
def sharing_value (sigma d : ℚ) : ℚ := if d < sigma then 1 - d / sigma else 0

/-- `apply_fitness_sharing`: divide fitness by the niche count when the
niche count exceeds 1.  (The source mutates fitness in place, but the niche
counts read only the ASTs, so a map is equivalent.) -/
def apply_fitness_sharing (population : List Individual) (sigma : ℚ) :
    List Individual :=
  population.map (fun ind =>
    let niche_count := (population.map (fun other =>
      sharing_value sigma (structural_distance ind.ast other.ast))).sum
    if 1 < niche_count then { ind with fitness := ind.fitness / niche_count }
    else ind)

/-- The `for i { for j in (i+1).. }` pair loop of
`calculate_population_stats`: total pairwise distance and pair count. -/
def pairwise_distances (population : List Individual) : ℚ × Nat :=
  match population with
  | [] => (0, 0)
  | x :: xs =>
      let inner := (xs.map (fun y => structural_distance x.ast y.ast)).sum
      let rest := pairwise_distances xs
      (inner + rest.1, xs.length + rest.2)

/-- `calculate_population_stats`.  `f64::sqrt` has no exact `ℚ` counterpart
and is taken as an explicit function parameter; every claim proved about
this function holds for an arbitrary `sqrtFn`. -/
def calculate_population_stats (sqrtFn : ℚ → ℚ)
    (population : List Individual) : PopulationStats :=
  if population.isEmpty then ⟨0, 0, 0, 0, 0, 0⟩
  else
    let n : ℚ := (population.length : ℚ)
    let fitnesses := population.map (fun ind => ind.fitness)
    let avg_fitness := fitnesses.sum / n
    let fitness_variance := (fitnesses.map (fun f => (f - avg_fitness) ^ 2)).sum / n
    let sizes := population.map (fun ind => (ind.size : ℚ))
    let avg_size := sizes.sum / n
    let size_variance := (sizes.map (fun s => (s - avg_size) ^ 2)).sum / n
    let pairs := pairwise_distances population
    let diversity_score := if 0 < pairs.2 then pairs.1 / (pairs.2 : ℚ) else 0
    ⟨avg_fitness, sqrtFn fitness_variance, avg_size, sqrtFn size_variance,
      diversity_score, 0⟩

/-- The candidate scoring of `diverse_elitism`'s inner scan: fitness plus a
30% diversity bonus when the minimum structural distance to the elites
(`f64::INFINITY`-initialised fold, modelled as `Option` with `none` = ∞)
is at least `min_distance`. -/
def candidate_score (cand : Individual) (elites : List Individual)
    (min_distance : ℚ) : ℚ :=
  let mdist := (elites.map (fun e => structural_distance cand.ast e.ast)).foldl
    (fun acc dd => match acc with
      | none => some dd
      | some m => some (min m dd)) (none : Option ℚ)
  let diverse : Bool := match mdist with
    | none => true
    | some m => decide (min_distance ≤ m)
  cand.fitness + (if diverse then cand.fitness * (3 / 10) else 0)

/-- The `best_candidate_idx` scan of `diverse_elitism`: running
(best index, next index, best score), starting from index 0 and score
`NEG_INFINITY` (modelled as `none`), updating on strictly greater scores. -/
def best_step (st : Nat × Nat × Option ℚ) (sc : ℚ) : Nat × Nat × Option ℚ :=
  match st with
  | (bestIdx, i, none) => (i, i + 1, some sc)
  | (bestIdx, i, some b) =>
      if b < sc then (i, i + 1, some sc) else (bestIdx, i + 1, some b)

theorem best_step_fold_lt :
    ∀ (scores : List ℚ) (b i : Nat) (v : ℚ), b < i →
      (scores.foldl best_step (b, i, some v)).1 < i + scores.length := by
  intro scores
  induction scores with
  | nil => intro b i v h; simpa using h
  | cons s rest ih =>
      intro b i v h
      simp only [List.foldl_cons, best_step]
      by_cases hc : v < s
      · simp only [if_pos hc]
        have := ih i (i + 1) s (by omega)
        simp only [List.length_cons]
        omega
      · simp only [if_neg hc]
        have := ih b (i + 1) v (by omega)
        simp only [List.length_cons]
        omega

theorem best_scan_lt (s : ℚ) (rest : List ℚ) :
    ((s :: rest).foldl best_step (0, 0, none)).1 < (s :: rest).length := by
  simp only [List.foldl_cons, best_step, Nat.zero_add]
  have := best_step_fold_lt rest 0 1 s (by omega)
  simp only [List.length_cons]
  omega

/-- The `while elites.len() < elite_count && !remaining.is_empty()` loop of
`diverse_elitism`: repeatedly move the maximum-scoring remaining candidate
into the elites. -/
def diverse_elitism_loop (elite_count : Nat) (min_distance : ℚ) :
    List Individual → List Individual → List Individual
  | elites, remaining =>
      if h : elites.length < elite_count ∧ remaining ≠ [] then
        match hr : remaining with
        | [] => elites
        | r0 :: rs =>
            let scores := (r0 :: rs).map
              (fun cand => candidate_score cand elites min_distance)
            let idx := (scores.foldl best_step (0, 0, none)).1
            have hidx : idx < (r0 :: rs).length := by
              have := best_scan_lt (candidate_score r0 elites min_distance)
                (rs.map (fun cand => candidate_score cand elites min_distance))
              simpa using this
            have : ((r0 :: rs).eraseIdx idx).length < (r0 :: rs).length := by
              rw [List.length_eraseIdx_of_lt hidx]
              simp
            diverse_elitism_loop elite_count min_distance
              (elites ++ [(r0 :: rs).get ⟨idx, hidx⟩])
              ((r0 :: rs).eraseIdx idx)
      else elites
termination_by _ remaining => remaining.length

/-- `diverse_elitism`: sort by descending fitness (stable), always keep the
best individual, then greedily fill the remaining elite slots by the
fitness-plus-diversity score. -/
def diverse_elitism (population : List Individual) (elite_count : Nat)
    (min_distance : ℚ) : List Individual :=
  if population.isEmpty then []
  else
    match population.mergeSort (fun x y => decide (y.fitness ≤ x.fitness)) with
    | [] => []
    | best :: rest => diverse_elitism_loop elite_count min_distance [best] rest

/-- The `(0..tournament_size).map(|_| &population[rng.gen_range(..)])` draw
loop of `diverse_tournament_selection` (with replacement). -/
def tournament_draw (population : List Individual) :
    Nat → RNG → List Individual
  | 0, _ => []
  | n + 1, g =>
      population.getD ((genRange 0 population.length g).1) default ::
        tournament_draw population n ((genRange 0 population.length g).2)

/-- `diverse_tournament_selection`: `none` models the two panics — the
`gen_range(0..0)` on an empty population and the `.max_by(..).unwrap()` on
an empty tournament.  `max_by` returns the last maximal element. -/
def diverse_tournament_selection (population : List Individual)
    (tournament_size : Nat) (diversity_weight : ℚ) (g : RNG) :
    Option Individual :=
  if population.length = 0 then none
  else
    match tournament_draw population tournament_size g with
    | [] => none
    | t :: ts =>
        some (ts.foldl (fun best cand =>
          if best.fitness + diversity_weight * best.novelty_score ≤
              cand.fitness + diversity_weight * cand.novelty_score
          then cand else best) t)

/-- The `for i { for j in (i+1).. }` scan of `enforce_minimum_diversity`:
collect indices to remove (worse member of every too-close pair, random on
exact fitness ties, no duplicate pushes), threading the random source. -/
def emd_scan (population : List Individual) (min_distance : ℚ) (g : RNG) :
    List Nat × RNG :=
  let idxPairs := (List.range population.length).flatMap
    (fun i => (List.range' (i + 1) (population.length - (i + 1))).map
      (fun j => (i, j)))
  idxPairs.foldl (fun st p =>
    let pi := population.getD p.1 default
    let pj := population.getD p.2 default
    if structural_distance pi.ast pj.ast < min_distance then
      let ridx := if pj.fitness < pi.fitness then p.2
        else if pi.fitness < pj.fitness then p.1
        else (if (genBool st.2).1 then p.1 else p.2)
      let g' := if pj.fitness < pi.fitness then st.2
        else if pi.fitness < pj.fitness then st.2
        else (genBool st.2).2
      (if st.1.contains ridx then st.1 else st.1 ++ [ridx], g')
    else st) ([], g)

/-- `enforce_minimum_diversity`: scan all pairs, then sort the removal list,
deduplicate, and delete the indices from highest to lowest. -/
def enforce_minimum_diversity (population : List Individual)
    (min_distance : ℚ) (g : RNG) : List Individual × RNG :=
  let scan := emd_scan population min_distance g
  let sorted := (scan.1.mergeSort (fun x y => decide (x ≤ y))).dedup
  (sorted.reverse.foldl (fun pop idx => pop.eraseIdx idx) population, scan.2)

theorem tournament_draw_singleton (ind : Individual) :
    ∀ (n : Nat) (g : RNG), tournament_draw [ind] n g = List.replicate n ind := by
  intro n
  induction n with
  | zero => intro g; rfl
  | succ k ih =>
      intro g
      simp [tournament_draw, genRange, ih, List.replicate_succ, Nat.mod_one]

theorem foldl_self {α : Type} (f : α → α → α) (x : α) (hf : f x x = x) :
    ∀ n : Nat, List.foldl f x (List.replicate n x) = x := by
  intro n
  induction n with
  | zero => rfl
  | succ k ih => simp [List.replicate_succ, hf, ih]

/-- C9, counterexample: `diverse_tournament_selection` on the empty
population panics (`rng.gen_range(0..0)` samples an empty range, modelled
as `none`) even with tournament size 1 — it has no safe fallback. -/
theorem tournament_selection_empty_population_panics :
    diverse_tournament_selection [] 1 0 (fun _ => 0) = none := rfl

/-- C9, amended: aging, novelty scoring, fitness sharing, statistics,
diverse elitism and minimum-diversity enforcement return their documented
fallbacks on empty and singleton populations without panicking, and diverse
tournament selection (tournament size ≥ 1) is safe on a singleton
population; but diverse tournament selection panics on an empty population
(it indexes after sampling `gen_range(0..0)`). -/
theorem population_ops_empty_singleton_safe
    (ind : Individual) (a : UntypedAst) (g : RNG) (ts elite_count : Nat)
    (w σ d : ℚ) (sqrtFn : ℚ → ℚ) (hts : 1 ≤ ts) :
    calculate_novelty_score a [] = 1 ∧
    calculate_novelty_score a [ind] = 1 ∧
    age_population ([] : List Individual) = [] ∧
    age_population [ind] = [{ ind with age := ind.age + 1 }] ∧
    apply_fitness_sharing [] σ = [] ∧
    apply_fitness_sharing [ind] σ = [ind] ∧
    calculate_population_stats sqrtFn [] = ⟨0, 0, 0, 0, 0, 0⟩ ∧
    (calculate_population_stats sqrtFn [ind]).diversity_score = 0 ∧
    diverse_elitism [] elite_count d = [] ∧
    diverse_elitism [ind] elite_count d = [ind] ∧
    diverse_tournament_selection [ind] ts w g = some ind ∧
    (enforce_minimum_diversity [] d g).1 = [] ∧
    (enforce_minimum_diversity [ind] d g).1 = [ind] := by
  refine ⟨rfl, rfl, rfl, rfl, rfl, ?_, rfl, ?_, rfl, ?_, ?_, ?_, ?_⟩
  · simp only [apply_fitness_sharing, List.map_cons, List.map_nil,
      structural_distance_self, sharing_value, List.sum_cons, List.sum_nil]
    by_cases hσ : (0 : ℚ) < σ
    · simp [hσ]
    · simp [hσ]
  · simp [calculate_population_stats, pairwise_distances]
  · simp only [diverse_elitism, List.mergeSort_singleton, List.isEmpty_cons,
      Bool.false_eq_true, if_false]
    rw [diverse_elitism_loop.eq_def]
    simp
  · rw [diverse_tournament_selection]
    simp only [List.length_cons, List.length_nil]
    obtain ⟨k, hk⟩ : ∃ k, ts = k + 1 := ⟨ts - 1, by omega⟩
    subst hk
    rw [if_neg (by omega)]
    rw [tournament_draw_singleton]
    simp only [List.replicate_succ]
    rw [foldl_self _ _ (by simp) k]
  · simp [enforce_minimum_diversity, emd_scan]
  · simp [enforce_minimum_diversity, emd_scan, List.range_succ, List.range_zero,
      List.range'_zero, List.flatMap_cons, List.flatMap_nil, List.mergeSort_nil,
      List.dedup_nil]

/-- C9 witness: the amended theorem at a concrete individual, query tree,
all-zero stream, tournament size 1 and concrete parameters. -/
theorem population_ops_empty_singleton_safe_witness :
    calculate_novelty_score (IntLiteral 2) [] = 1 ∧
    calculate_novelty_score (IntLiteral 2) [⟨IntLiteral 1, 5, 1, 0, 0⟩] = 1 ∧
    age_population ([] : List Individual) = [] ∧
    age_population [⟨IntLiteral 1, 5, 1, 0, 0⟩]
      = [{ (⟨IntLiteral 1, 5, 1, 0, 0⟩ : Individual) with age :=
            (⟨IntLiteral 1, 5, 1, 0, 0⟩ : Individual).age + 1 }] ∧
    apply_fitness_sharing [] 1 = [] ∧
    apply_fitness_sharing [⟨IntLiteral 1, 5, 1, 0, 0⟩] 1
      = [⟨IntLiteral 1, 5, 1, 0, 0⟩] ∧
    calculate_population_stats (fun q => q) [] = ⟨0, 0, 0, 0, 0, 0⟩ ∧
    (calculate_population_stats (fun q => q)
      [⟨IntLiteral 1, 5, 1, 0, 0⟩]).diversity_score = 0 ∧
    diverse_elitism [] 2 1 = [] ∧
    diverse_elitism [⟨IntLiteral 1, 5, 1, 0, 0⟩] 2 1
      = [⟨IntLiteral 1, 5, 1, 0, 0⟩] ∧
    diverse_tournament_selection [⟨IntLiteral 1, 5, 1, 0, 0⟩] 1 0 (fun _ => 0)
      = some ⟨IntLiteral 1, 5, 1, 0, 0⟩ ∧
    (enforce_minimum_diversity [] 1 (fun _ => 0)).1 = [] ∧
    (enforce_minimum_diversity [⟨IntLiteral 1, 5, 1, 0, 0⟩] 1 (fun _ => 0)).1
      = [⟨IntLiteral 1, 5, 1, 0, 0⟩] :=
  population_ops_empty_singleton_safe ⟨IntLiteral 1, 5, 1, 0, 0⟩ (IntLiteral 2)
    (fun _ => 0) 1 2 0 1 1 (fun q => q) (by decide)

end SoLUSH
